import Mathlib

/-!
Verification of the graph-augmented retrieval engine of the `cj-rag`
package (files `src/graph.py`, `src/retriever.py`, `src/models.py`).

The Python code is shallowly embedded: dataclasses become structures,
Python `float` scores are modelled as exact rationals (`ℚ`), Python
dicts become insertion-ordered association lists, and the `networkx`
directed graph becomes an explicit node list plus an edge list keyed by
the ordered pair of endpoints (at most one edge per ordered pair, as in
`networkx.DiGraph`).  Fallible dictionary indexing (`d[k]`, which raises
`KeyError` in Python) is modelled with `Option`.
-/

/-- `models.ReferenceType`: kinds of references between code elements. -/
inductive ReferenceType where
  | CALLS
  | MENTIONS
  | TYPE_REFERENCE
deriving DecidableEq, Repr

/-- `models.ElementType`: kinds of extracted code elements. -/
inductive ElementType where
  | FUNCTION
  | CLASS
  | STRUCT
  | INTERFACE
  | ENUM
deriving DecidableEq, Repr

/-- `models.ChunkMetadata`. -/
structure ChunkMetadata where
  code_elements : List String
  language : String
  section_title : Option String
deriving DecidableEq, Repr

/-- `models.Chunk`: a chunk of documentation content.  `start_line` and
`end_line` are Python ints, modelled as `ℤ`. -/
structure Chunk where
  id : String
  content : String
  file_path : String
  start_line : ℤ
  end_line : ℤ
  chunk_type : String
  metadata : ChunkMetadata
deriving DecidableEq, Repr

/-- `models.CodeElement`. -/
structure CodeElement where
  name : String
  element_type : ElementType
  signature : Option String
  source_chunk : String
  line_number : Option ℤ
deriving DecidableEq, Repr

/-- `models.Reference`: a reference from one chunk to a code element. -/
structure Reference where
  source_chunk : String
  target_element : String
  reference_type : ReferenceType
  receiver : Option String
  confidence : ℚ
deriving DecidableEq, Repr

/-- `models.ChunkResult`: a vector-search result with similarity score. -/
structure ChunkResult where
  id : String
  content : String
  score : ℚ
  metadata : ChunkMetadata
deriving DecidableEq, Repr

/-- `models.RetrievalConfig`. -/
structure RetrievalConfig where
  initial_k : ℕ
  max_graph_distance : ℕ
  relevance_threshold : ℚ
  max_total_chunks : ℕ
  rerank_by_graph : Bool
deriving DecidableEq, Repr

/-- `models.ChunkNode`: a node of the code graph. -/
structure ChunkNode where
  chunk_id : String
  code_elements : List String
  centrality_score : ℚ
deriving DecidableEq, Repr

/-- The attribute dictionary `networkx` stores on each edge that
`CodeGraph.add_reference_edge` creates: keys `element`, `weight`,
`reference_type`. -/
structure EdgeData where
  element : String
  weight : ℚ
  reference_type : ReferenceType
deriving DecidableEq, Repr

/-! ### Insertion-ordered dictionaries (Python `dict` / `defaultdict`) -/

/-- Python `d.get(k)` / `d[k]` lookup on an insertion-ordered dict. -/
def assocLookup {α : Type} (l : List (String × α)) (k : String) : Option α :=
  (l.find? (fun p => decide (p.1 = k))).map (fun p => p.2)

/-- Python `d.get(k, dflt)`. -/
def lookupD {α : Type} (l : List (String × α)) (k : String) (dflt : α) : α :=
  (assocLookup l k).getD dflt

/-- Python `d[k] = v`: replace in place if the key exists (dicts keep the
original insertion position on update), append otherwise. -/
def assocSet {α : Type} (l : List (String × α)) (k : String) (v : α) :
    List (String × α) :=
  if (assocLookup l k).isSome then
    l.map (fun p => if p.1 = k then (k, v) else p)
  else
    l ++ [(k, v)]

/-- Python `d.pop(k, None)`. -/
def assocRemove {α : Type} (l : List (String × α)) (k : String) :
    List (String × α) :=
  l.filter (fun p => decide (p.1 ≠ k))

/-! ### The `networkx.DiGraph` used by `CodeGraph` -/

/-- The fragment of `networkx.DiGraph` that `graph.py` uses: a node set
and, for each ordered pair of nodes, at most one attributed edge.  Node
attribute payloads written by `add_chunk` (`chunk_type`, `file_path`,
`elements`) are never read anywhere in the repository and are carried by
`chunk_metadata` / `chunk_elements` instead, so nodes are bare ids here. -/
structure DiGraph where
  nodes : List String
  edges : List (String × String × EdgeData)
deriving DecidableEq, Repr

def DiGraph.empty : DiGraph := ⟨[], []⟩

/-- `G.add_node(n)` (attribute-free part): no-op if present. -/
def DiGraph.addNode (g : DiGraph) (n : String) : DiGraph :=
  if n ∈ g.nodes then g else { g with nodes := g.nodes ++ [n] }

/-- `G.get_edge_data(u, v)`. -/
def DiGraph.findEdge (g : DiGraph) (u v : String) : Option EdgeData :=
  (g.edges.find? (fun e => decide (e.1 = u) && decide (e.2.1 = v))).map
    (fun e => e.2.2)

/-- `G.add_edge(u, v, **attrs)`: inserts missing endpoints as nodes; if
the ordered pair already has an edge its attribute dict is updated in
place (all three attributes are always supplied, so they are replaced),
otherwise a fresh edge is appended. -/
def DiGraph.addEdge (g : DiGraph) (u v : String) (d : EdgeData) : DiGraph :=
  let g := (g.addNode u).addNode v
  if (g.findEdge u v).isSome then
    { g with edges := g.edges.map (fun e =>
        if e.1 = u ∧ e.2.1 = v then (u, v, d) else e) }
  else
    { g with edges := g.edges ++ [(u, v, d)] }

/-- `G.successors(n)`: targets of edges leaving `n`. -/
def DiGraph.successors (g : DiGraph) (n : String) : List String :=
  (g.edges.filter (fun e => decide (e.1 = n))).map (fun e => e.2.1)

/-- `G.predecessors(n)`: sources of edges entering `n`. -/
def DiGraph.predecessors (g : DiGraph) (n : String) : List String :=
  (g.edges.filter (fun e => decide (e.2.1 = n))).map (fun e => e.1)

/-- `G.remove_node(n)`: drops the node and every incident edge. -/
def DiGraph.removeNode (g : DiGraph) (n : String) : DiGraph :=
  { nodes := g.nodes.filter (fun m => decide (m ≠ n)),
    edges := g.edges.filter (fun e => decide (e.1 ≠ n) && decide (e.2.1 ≠ n)) }

/-- Well-formedness maintained by `networkx`: no duplicate nodes, at most
one edge per ordered pair, edge endpoints are nodes. -/
def DiGraph.Wf (g : DiGraph) : Prop :=
  g.nodes.Nodup ∧
  (g.edges.map (fun e => (e.1, e.2.1))).Nodup ∧
  ∀ e ∈ g.edges, e.1 ∈ g.nodes ∧ e.2.1 ∈ g.nodes

instance (g : DiGraph) : Decidable g.Wf := by
  unfold DiGraph.Wf; infer_instance

/-! ### `graph.CodeGraph` -/

/-- `graph.CodeGraph`: the directed chunk graph together with the
element-name index and per-chunk metadata. -/
structure CodeGraph where
  graph : DiGraph
  element_index : List (String × List String)
  chunk_elements : List (String × List String)
  chunk_metadata : List (String × ChunkNode)
deriving DecidableEq, Repr

/-- `CodeGraph.__init__`. -/
def CodeGraph.empty : CodeGraph := ⟨DiGraph.empty, [], [], []⟩

/-- `CodeGraph.add_chunk`: registers the chunk node, its metadata and its
element names, and appends the chunk id to the index entry of every
extracted element (in element order, duplicates included). -/
def CodeGraph.add_chunk (g : CodeGraph) (chunk : Chunk)
    (elements : List CodeElement) : CodeGraph :=
  let element_names := elements.map (fun e => e.name)
  { graph := g.graph.addNode chunk.id,
    element_index := element_names.foldl
      (fun ei n => assocSet ei n (lookupD ei n [] ++ [chunk.id]))
      g.element_index,
    chunk_elements := assocSet g.chunk_elements chunk.id element_names,
    chunk_metadata := assocSet g.chunk_metadata chunk.id
      ⟨chunk.id, element_names, 0⟩ }

/-- `CodeGraph.add_reference_edge`: skips self-references, otherwise
stores (or overwrites) the single edge for the ordered pair. -/
def CodeGraph.add_reference_edge (g : CodeGraph)
    (source_chunk target_chunk : String) (element : String) (weight : ℚ)
    (reference_type : ReferenceType) : CodeGraph :=
  if source_chunk = target_chunk then g
  else { g with graph := (g.graph.addEdge source_chunk target_chunk
      (EdgeData.mk element weight reference_type)) }

/-- `CodeGraph._calculate_edge_weight`, written exactly in the source's
sequential style: pick the base by reference kind, add 0.2 for a shared
file, add a further 0.1 for a line distance below 50 in the same file,
multiply by the confidence, then cap at 1.0. -/
def CodeGraph.calculate_edge_weight (source_chunk target_chunk : Chunk)
    (reference : Reference) : ℚ :=
  let base_weight : ℚ := 0.5
  let base_weight : ℚ :=
    match reference.reference_type with
    | ReferenceType.CALLS => 0.9
    | ReferenceType.TYPE_REFERENCE => 0.8
    | ReferenceType.MENTIONS => 0.6
  let base_weight :=
    if source_chunk.file_path = target_chunk.file_path then base_weight + 0.2
    else base_weight
  let base_weight :=
    if source_chunk.file_path = target_chunk.file_path ∧
        |source_chunk.start_line - target_chunk.start_line| < 50 then
      base_weight + 0.1
    else base_weight
  let base_weight := base_weight * reference.confidence
  min base_weight 1

/-- `{chunk.id: chunk for chunk in chunks}` (later duplicates overwrite). -/
def mkChunkDict (chunks : List Chunk) : List (String × Chunk) :=
  chunks.foldl (fun d c => assocSet d c.id c) []

/-- Innermost loop of `CodeGraph.build_references`: for each chunk id
defining the referenced element, skip the source itself, look both
chunks up in `chunk_dict` (a `KeyError`, i.e. `none`, aborts the build)
and insert the weighted edge. -/
def CodeGraph.buildRefTargets (chunk_dict : List (String × Chunk))
    (chunk : Chunk) (ref : Reference) :
    List String → CodeGraph → Option CodeGraph
  | [], g => some g
  | target_chunk_id :: rest, g =>
    if target_chunk_id = chunk.id then
      CodeGraph.buildRefTargets chunk_dict chunk ref rest g
    else
      match assocLookup chunk_dict chunk.id,
            assocLookup chunk_dict target_chunk_id with
      | some src, some tgt =>
        CodeGraph.buildRefTargets chunk_dict chunk ref rest
          (g.add_reference_edge chunk.id target_chunk_id ref.target_element
            (CodeGraph.calculate_edge_weight src tgt ref) ref.reference_type)
      | _, _ => none

/-- Middle loop of `CodeGraph.build_references`: resolve each extracted
reference against the (unchanging) element index. -/
def CodeGraph.buildRefList (chunk_dict : List (String × Chunk))
    (chunk : Chunk) :
    List Reference → CodeGraph → Option CodeGraph
  | [], g => some g
  | ref :: rest, g =>
    match CodeGraph.buildRefTargets chunk_dict chunk ref
        (lookupD g.element_index ref.target_element []) g with
    | some g => CodeGraph.buildRefList chunk_dict chunk rest g
    | none => none

/-- Outer loop of `CodeGraph.build_references` over the chunk list. -/
def CodeGraph.buildRefChunks (chunk_dict : List (String × Chunk))
    (extract_references : Chunk → List Reference) :
    List Chunk → CodeGraph → Option CodeGraph
  | [], g => some g
  | chunk :: rest, g =>
    match CodeGraph.buildRefList chunk_dict chunk
        (extract_references chunk) g with
    | some g => CodeGraph.buildRefChunks chunk_dict extract_references rest g
    | none => none

/-- `CodeGraph.build_references`, parameterised by the extractor's
`extract_references` method.  `none` models an uncaught `KeyError` from
`chunk_dict[target_chunk_id]` when the element index names a chunk that
is not in the `chunks` argument. -/
def CodeGraph.build_references (g : CodeGraph) (chunks : List Chunk)
    (extract_references : Chunk → List Reference) : Option CodeGraph :=
  CodeGraph.buildRefChunks (mkChunkDict chunks) extract_references chunks g

/-! ### `CodeGraph.get_neighbors` -/

/-- The weight test `edge_data and edge_data.get('weight', 0) >= min_weight`
applied to the edge for the ordered pair `(u, v)`. -/
def DiGraph.edgeQualifies (g : DiGraph) (min_weight : ℚ) (u v : String) : Bool :=
  match g.findEdge u v with
  | some d => decide (min_weight ≤ d.weight)
  | none => false

/-- One node's contribution to a BFS level: qualifying successors
(outgoing edges) followed by qualifying predecessors (incoming edges). -/
def DiGraph.adjacentQualified (g : DiGraph) (min_weight : ℚ) (node : String) :
    List String :=
  (g.successors node).filter (fun nb => g.edgeQualifies min_weight node nb) ++
    (g.predecessors node).filter (fun nb => g.edgeQualifies min_weight nb node)

/-- The `for distance in range(1, max_distance + 1)` loop of
`get_neighbors`: per level collect qualifying neighbours of the current
frontier into both `next_level` and the accumulated `neighbors` set
(sets are modelled as deduplicated lists), stopping early on an empty
frontier. -/
def DiGraph.getNeighborsLoop (g : DiGraph) (min_weight : ℚ) :
    ℕ → List String → List String → List String
  | 0, _, neighbors => neighbors
  | fuel + 1, current_level, neighbors =>
    let found := current_level.foldr
      (fun node acc => g.adjacentQualified min_weight node ++ acc) []
    let next_level := found.dedup
    let neighbors := (neighbors ++ found).dedup
    if next_level = [] then neighbors
    else g.getNeighborsLoop min_weight fuel next_level neighbors

/-- `CodeGraph.get_neighbors` (the graph part): empty for an unknown
chunk id, otherwise the level-bounded expansion seeded at the chunk. -/
def DiGraph.get_neighbors (g : DiGraph) (chunk_id : String)
    (max_distance : ℕ) (min_weight : ℚ) : List String :=
  if chunk_id ∈ g.nodes then
    g.getNeighborsLoop min_weight max_distance [chunk_id] []
  else []

/-- `CodeGraph.get_neighbors`. -/
def CodeGraph.get_neighbors (g : CodeGraph) (chunk_id : String)
    (max_distance : ℕ) (min_weight : ℚ) : List String :=
  g.graph.get_neighbors chunk_id max_distance min_weight

/-! ### `CodeGraph.get_shortest_path`

`networkx.shortest_path` on an unweighted call is a breadth-first
search; it raises `NodeNotFound` when either endpoint is missing and
`NetworkXNoPath` when the target is unreachable.  The model computes the
set of nodes reachable within `n` steps and produces a concrete path by
recursion on the number of steps. -/

/-- One directed step: `b` is a successor of `a`. -/
def DiGraph.Steps (g : DiGraph) (a b : String) : Prop :=
  b ∈ g.successors a

/-- There is a directed path (possibly empty) from `a` to `b`. -/
def DiGraph.Reaches (g : DiGraph) (a b : String) : Prop :=
  Relation.ReflTransGen g.Steps a b

/-- Nodes reachable from `source` in at most `n` directed steps. -/
def DiGraph.reachList (g : DiGraph) (source : String) : ℕ → List String
  | 0 => [source]
  | n + 1 =>
    let prev := g.reachList source n
    (prev ++ prev.foldr (fun u acc => g.successors u ++ acc) []).dedup

/-- A concrete path of at most `n` steps from `source` to the first
argument, if one exists: either the trivial path, a path found with less
fuel, or a path through some predecessor reachable with less fuel. -/
def DiGraph.pathTo (g : DiGraph) (source : String) :
    ℕ → String → Option (List String)
  | 0, target => if target = source then some [source] else none
  | n + 1, target =>
    if target = source then some [source]
    else if target ∈ g.reachList source n then g.pathTo source n target
    else
      match (g.reachList source n).find?
          (fun u => decide (target ∈ g.successors u)) with
      | some u => (g.pathTo source n u).map (fun p => p ++ [target])
      | none => none

/-- Errors raised by `networkx.shortest_path`. -/
inductive NxPathError where
  | nodeNotFound
  | noPath
deriving DecidableEq, Repr

/-- `networkx.shortest_path(G, source, target)` with its two exceptions.
The fuel `g.edges.length + 1` bounds every breadth-first search. -/
def DiGraph.nxShortestPath (g : DiGraph) (source target : String) :
    Except NxPathError (List String) :=
  if source ∈ g.nodes then
    if target ∈ g.nodes then
      match g.pathTo source (g.edges.length + 1) target with
      | some p => Except.ok p
      | none => Except.error NxPathError.noPath
    else Except.error NxPathError.nodeNotFound
  else Except.error NxPathError.nodeNotFound

/-- `CodeGraph.get_shortest_path`: catches both exceptions and returns
the empty list instead. -/
def CodeGraph.get_shortest_path (g : CodeGraph)
    (source_chunk target_chunk : String) : List String :=
  match g.graph.nxShortestPath source_chunk target_chunk with
  | Except.ok p => p
  | Except.error _ => []

/-! ### Snapshot save / load (`save_to_file` / `load_from_file`)

`pickle` faithfully round-trips the Python dictionaries involved, so the
serialized artifact is modelled as a record of the lists that
`save_to_file` assembles.  `nx.node_link_data` / `nx.node_link_graph`
are modelled as the node list plus the attributed link list, rebuilt by
re-adding every node and every edge. -/

/-- The `chunk_metadata` entries as serialized by `save_to_file`. -/
structure SavedChunkNode where
  chunk_id : String
  code_elements : List String
  centrality_score : ℚ
deriving DecidableEq, Repr

/-- The pickled `graph_data` dictionary. -/
structure GraphData where
  graph_nodes : List String
  graph_links : List (String × String × EdgeData)
  element_index : List (String × List String)
  chunk_elements : List (String × List String)
  chunk_metadata : List (String × SavedChunkNode)
deriving DecidableEq, Repr

/-- `CodeGraph.save_to_file` (the data it writes, file handling aside). -/
def CodeGraph.save_to_file (g : CodeGraph) : GraphData :=
  { graph_nodes := g.graph.nodes,
    graph_links := g.graph.edges,
    element_index := g.element_index,
    chunk_elements := g.chunk_elements,
    chunk_metadata := g.chunk_metadata.map (fun p =>
      (p.1, SavedChunkNode.mk p.2.chunk_id p.2.code_elements
        p.2.centrality_score)) }

/-- `nx.node_link_graph`: rebuild the graph by adding every node, then
every attributed link. -/
def nodeLinkGraph (gnodes : List String)
    (glinks : List (String × String × EdgeData)) : DiGraph :=
  glinks.foldl (fun g e => g.addEdge e.1 e.2.1 e.2.2)
    (gnodes.foldl DiGraph.addNode DiGraph.empty)

/-- `CodeGraph.load_from_file`: restore the graph via `node_link_graph`,
re-assign every element-index entry into a fresh `defaultdict`, copy the
chunk-elements map, and rebuild every `ChunkNode`. -/
def CodeGraph.load_from_file (data : GraphData) : CodeGraph :=
  { graph := nodeLinkGraph data.graph_nodes data.graph_links,
    element_index := data.element_index.foldl
      (fun ei p => assocSet ei p.1 p.2) [],
    chunk_elements := data.chunk_elements,
    chunk_metadata := data.chunk_metadata.map (fun p =>
      (p.1, ChunkNode.mk p.2.chunk_id p.2.code_elements
        p.2.centrality_score)) }

/-! ### Centrality and the `GraphBuilder` update path -/

/-- `CodeGraph.compute_centrality_scores`, parameterised by the
`networkx` centrality oracle (`nx.pagerank`, falling back to
`nx.degree_centrality` on non-convergence — both are library calls whose
numeric output this embedding treats as an opaque score function over
the graph's nodes).  Every graph node's score is written into
`chunk_metadata` where an entry exists; an empty graph is untouched. -/
def CodeGraph.compute_centrality_scores (scores : DiGraph → String → ℚ)
    (g : CodeGraph) : CodeGraph :=
  if g.graph.nodes = [] then g
  else { g with chunk_metadata := (g.graph.nodes.foldl
    (fun m cid =>
      match assocLookup m cid with
      | some node =>
        assocSet m cid { node with centrality_score := scores g.graph cid }
      | none => m)
    g.chunk_metadata) }

/-- The removal phase of `GraphBuilder.update_graph` for one chunk id:
strip it from the element index, remove its node and incident edges, and
pop its metadata. -/
def CodeGraph.removeChunkForUpdate (g : CodeGraph) (chunk_id : String) :
    CodeGraph :=
  if chunk_id ∈ g.graph.nodes then
    let ei :=
      match assocLookup g.chunk_elements chunk_id with
      | some elems => elems.foldl
          (fun ei element =>
            if (assocLookup ei element).isSome then
              assocSet ei element
                ((lookupD ei element []).filter (fun cid => decide (cid ≠ chunk_id)))
            else ei)
          g.element_index
      | none => g.element_index
    { graph := g.graph.removeNode chunk_id,
      element_index := ei,
      chunk_elements := assocRemove g.chunk_elements chunk_id,
      chunk_metadata := assocRemove g.chunk_metadata chunk_id }
  else g

/-- `GraphBuilder.update_graph`: remove the requested chunks, add the new
chunks with their extracted elements, rebuild references over the new
chunk list only, then recompute centrality.  `none` models the uncaught
`KeyError` that `build_references` raises when a new chunk references an
element whose defining chunk is not among `new_chunks`. -/
def GraphBuilder.update_graph (extract_elements : Chunk → List CodeElement)
    (extract_references : Chunk → List Reference)
    (scores : DiGraph → String → ℚ) (g : CodeGraph)
    (new_chunks : List Chunk) (removed_chunk_ids : List String) :
    Option CodeGraph :=
  let g := removed_chunk_ids.foldl CodeGraph.removeChunkForUpdate g
  let g := new_chunks.foldl
    (fun g chunk => g.add_chunk chunk (extract_elements chunk)) g
  match g.build_references new_chunks extract_references with
  | some g => some (g.compute_centrality_scores scores)
  | none => none

/-! ### `retriever.ResultRanker` -/

/-- Python's substring test `pat in s` for a non-empty pattern:
`s.splitOn pat` has a second piece exactly when `pat` occurs in `s`. -/
def strContains (s pat : String) : Bool :=
  decide (1 < (s.splitOn pat).length)

/-- The `intent_indicators` table of
`ResultRanker._calculate_intent_score` (`.get(intent, [])`). -/
def intentIndicators (intent : String) : List String :=
  if intent = "definition" then ["definition", "is a", "represents", "type of"]
  else if intent = "usage" then ["example", "use", "usage", "implement", "call"]
  else if intent = "troubleshooting" then
    ["error", "problem", "issue", "solution", "fix"]
  else if intent = "comparison" then
    ["vs", "versus", "compare", "difference", "unlike"]
  else []

/-- `ResultRanker._calculate_intent_score`: the fraction of the intent's
indicator phrases occurring in the lower-cased content, capped at 1;
0.5 for an intent with no indicators. -/
def calculate_intent_score (chunk : ChunkResult) (intent : String) : ℚ :=
  let content_lower := chunk.content.toLower
  let indicators := intentIndicators intent
  if indicators = [] then 0.5
  else
    let score : ℚ :=
      ((indicators.filter (fun ind => strContains content_lower ind)).length : ℚ)
    min (score / (indicators.length : ℚ)) 1

/-- The result of `QueryAnalyzer.analyze_query` (the two entries that the
ranker reads). -/
structure QueryAnalysis where
  code_elements : List String
  intent : String
deriving DecidableEq, Repr

/-- `ResultRanker._calculate_combined_score`, written in the source's
accumulating style.  The ranker's graph is represented by its
`chunk_metadata` map (the only part this method reads). -/
def calculate_combined_score (graph_metadata : List (String × ChunkNode))
    (chunk : ChunkResult) (query_analysis : QueryAnalysis)
    (config : RetrievalConfig) : ℚ :=
  let semantic_score := chunk.score
  let graph_score : ℚ :=
    match config.rerank_by_graph, assocLookup graph_metadata chunk.id with
    | true, some node =>
      let gs : ℚ := node.centrality_score * 0.3
      let chunk_elements := chunk.metadata.code_elements.toFinset
      let query_elements := query_analysis.code_elements.toFinset
      let gs : ℚ :=
        if query_elements ≠ ∅ then
          gs + (((chunk_elements ∩ query_elements).card : ℚ) /
            (query_elements.card : ℚ)) * 0.4
        else gs
      gs + calculate_intent_score chunk query_analysis.intent * 0.3
    | _, _ => 0
  0.7 * semantic_score + 0.3 * graph_score

/-- The Jaccard overlap ratio `|A ∩ B| / |A ∪ B|` used by
`_is_diverse_enough` (with rational division, so `0` when both sets are
empty). -/
def jaccardOverlap (a b : Finset String) : ℚ :=
  ((a ∩ b).card : ℚ) / ((a ∪ b).card : ℚ)

/-- `ResultRanker._is_diverse_enough`: reject the candidate exactly when
some already-selected chunk shares the graph's metadata with it and both
element sets are non-empty with Jaccard overlap above 0.7. -/
def is_diverse_enough (graph_metadata : List (String × ChunkNode))
    (candidate : ChunkResult) (selected : List ChunkResult) : Bool :=
  let candidate_elements := candidate.metadata.code_elements.toFinset
  selected.all (fun selected_chunk =>
    let selected_elements := selected_chunk.metadata.code_elements.toFinset
    if (assocLookup graph_metadata candidate.id).isSome ∧
        (assocLookup graph_metadata selected_chunk.id).isSome then
      if candidate_elements ≠ ∅ ∧ selected_elements ≠ ∅ then
        decide (¬ (0.7 : ℚ) < jaccardOverlap candidate_elements selected_elements)
      else true
    else true)

/-- The greedy acceptance loop of `_apply_diversity_filter`: stop once
`target_count` results are selected, otherwise append each candidate
that passes `_is_diverse_enough` against everything selected so far. -/
def greedyDiversityLoop (graph_metadata : List (String × ChunkNode))
    (target_count : ℕ) :
    List ChunkResult → List ChunkResult → List ChunkResult
  | [], selected => selected
  | chunk :: rest, selected =>
    if target_count ≤ selected.length then selected
    else if is_diverse_enough graph_metadata chunk selected then
      greedyDiversityLoop graph_metadata target_count rest (selected ++ [chunk])
    else
      greedyDiversityLoop graph_metadata target_count rest selected

/-- The greedily accepted prefix of `_apply_diversity_filter`'s output:
the top result unconditionally, then the greedy loop over the rest. -/
def greedyDiversitySelected (graph_metadata : List (String × ChunkNode))
    (chunks : List ChunkResult) (target_count : ℕ) : List ChunkResult :=
  match chunks with
  | [] => []
  | top :: rest => greedyDiversityLoop graph_metadata target_count rest [top]

/-- The backfill loop of `_apply_diversity_filter`: while slots remain,
append the first chunk not yet selected.  The Python `while` makes no
progress (and thus never terminates) when every chunk is already
selected, so the model carries explicit fuel and returns the current
selection when an iteration adds nothing. -/
def diversityBackfill (chunks : List ChunkResult) (target_count : ℕ) :
    ℕ → List ChunkResult → List ChunkResult
  | 0, selected => selected
  | fuel + 1, selected =>
    if selected.length < target_count ∧ selected.length < chunks.length then
      match chunks.find? (fun chunk => decide (chunk ∉ selected)) with
      | some chunk => diversityBackfill chunks target_count fuel (selected ++ [chunk])
      | none => selected
    else selected

/-- `ResultRanker._apply_diversity_filter`: identity below the target
count; otherwise the greedy selection followed by backfill. -/
def apply_diversity_filter (graph_metadata : List (String × ChunkNode))
    (chunks : List ChunkResult) (target_count : ℕ) : List ChunkResult :=
  if chunks.length ≤ target_count then chunks
  else
    diversityBackfill chunks target_count chunks.length
      (greedyDiversitySelected graph_metadata chunks target_count)

/-! ### Spec-side definitions

These follow the wording of the specification, for comparison with the
definitions translated from the source. -/

/-- Spec: `base` = 0.9 (CALLS), 0.8 (TYPE_REFERENCE), 0.6 (MENTIONS). -/
def specBase (kind : ReferenceType) : ℚ :=
  match kind with
  | ReferenceType.CALLS => 0.9
  | ReferenceType.TYPE_REFERENCE => 0.8
  | ReferenceType.MENTIONS => 0.6

/-- Spec: `same_file_bonus` = 0.2 exactly when the chunks share a file. -/
def specSameFileBonus (source_chunk target_chunk : Chunk) : ℚ :=
  if source_chunk.file_path = target_chunk.file_path then 0.2 else 0

/-- Spec: `proximity_bonus` = an additional 0.1 exactly when the chunks
share a file and their start lines differ by less than 50. -/
def specProximityBonus (source_chunk target_chunk : Chunk) : ℚ :=
  if source_chunk.file_path = target_chunk.file_path ∧
      |source_chunk.start_line - target_chunk.start_line| < 50 then 0.1
  else 0

/-- The edge-weight formula exactly as the claim states it:
`min(1.0, base(kind) + same_file_bonus + proximity_bonus) × confidence`,
with the cap applied before the confidence factor. -/
def claimedEdgeWeight (source_chunk target_chunk : Chunk)
    (reference : Reference) : ℚ :=
  min 1 (specBase reference.reference_type +
      specSameFileBonus source_chunk target_chunk +
      specProximityBonus source_chunk target_chunk) *
    reference.confidence

/-- The amended edge-weight formula:
`min(1.0, (base(kind) + same_file_bonus + proximity_bonus) × confidence)`,
with the cap applied after the confidence factor, as the code computes. -/
def amendedEdgeWeight (source_chunk target_chunk : Chunk)
    (reference : Reference) : ℚ :=
  min 1 ((specBase reference.reference_type +
      specSameFileBonus source_chunk target_chunk +
      specProximityBonus source_chunk target_chunk) *
    reference.confidence)

/-- The shape of an edge that `build_references` creates: some chunk of
the batch holds a reference whose element the (distinct) target chunk
defines, and the stored attributes are the element name, the amended
weight, and the reference kind. -/
def CreatedEdgeSpec (chunks : List Chunk)
    (extract_references : Chunk → List Reference) (g₀ : CodeGraph)
    (e : String × String × EdgeData) : Prop :=
  ∃ chunk ∈ chunks, ∃ ref ∈ extract_references chunk, ∃ src tgt : Chunk,
    assocLookup (mkChunkDict chunks) chunk.id = some src ∧
    assocLookup (mkChunkDict chunks) e.2.1 = some tgt ∧
    e.2.1 ∈ lookupD g₀.element_index ref.target_element [] ∧
    e.1 = chunk.id ∧ e.2.1 ≠ chunk.id ∧
    e.2.2 = EdgeData.mk ref.target_element (amendedEdgeWeight src tgt ref)
      ref.reference_type

/-- Spec: `element_overlap_ratio` = `|chunk ∩ query| / |query|`, defined
as 0 when the query has no recognized elements. -/
def specElementOverlapRatio (chunk_elements query_elements : Finset String) :
    ℚ :=
  if query_elements = ∅ then 0
  else ((chunk_elements ∩ query_elements).card : ℚ) /
    (query_elements.card : ℚ)

/-- Spec: `graph_score` is 0 unless graph re-ranking is enabled and the
chunk id is present in the graph, and otherwise
`0.3 × centrality + 0.4 × element_overlap_ratio + 0.3 × intent_score`. -/
def specGraphScore (graph_metadata : List (String × ChunkNode))
    (chunk : ChunkResult) (query_analysis : QueryAnalysis)
    (config : RetrievalConfig) : ℚ :=
  match config.rerank_by_graph, assocLookup graph_metadata chunk.id with
  | true, some node =>
    0.3 * node.centrality_score +
      0.4 * specElementOverlapRatio chunk.metadata.code_elements.toFinset
        query_analysis.code_elements.toFinset +
      0.3 * calculate_intent_score chunk query_analysis.intent
  | _, _ => 0

/-- Pairwise diversity of a result list: any two distinct members whose
chunk ids both occur in the graph's metadata have element-set Jaccard
overlap at most 0.7. -/
def PairwiseDiverse (graph_metadata : List (String × ChunkNode))
    (l : List ChunkResult) : Prop :=
  ∀ a ∈ l, ∀ b ∈ l, a ≠ b →
    (assocLookup graph_metadata a.id).isSome →
    (assocLookup graph_metadata b.id).isSome →
    jaccardOverlap a.metadata.code_elements.toFinset
      b.metadata.code_elements.toFinset ≤ 0.7

/-- The read operations of `CodeGraph` that the snapshot round trip must
preserve: node membership, edge membership with attributes, per-pair
edge attributes, the element-name index, and per-chunk metadata
(including centrality scores). -/
def ReadEquiv (g' g : CodeGraph) : Prop :=
  (∀ n, n ∈ g'.graph.nodes ↔ n ∈ g.graph.nodes) ∧
  (∀ e, e ∈ g'.graph.edges ↔ e ∈ g.graph.edges) ∧
  (∀ u v, g'.graph.findEdge u v = g.graph.findEdge u v) ∧
  (∀ name, lookupD g'.element_index name [] = lookupD g.element_index name []) ∧
  (∀ cid, assocLookup g'.chunk_metadata cid = assocLookup g.chunk_metadata cid)

/-! ### Concrete inputs used by witnesses and counterexamples -/

/-- A chunk in `guide.md` that calls `Foo` (no definitions of its own). -/
def exChunkA : Chunk :=
  ⟨"a", "Foo()", "guide.md", 1, 5, "MIXED", ⟨[], "cangjie", none⟩⟩

/-- A chunk in the same file, 9 lines below, defining `Foo`. -/
def exChunkB : Chunk :=
  ⟨"b", "func Foo() {}", "guide.md", 10, 20, "CODE", ⟨["Foo"], "cangjie", none⟩⟩

/-- A CALLS reference from chunk `a` to element `Foo`, confidence 0.8. -/
def exRefFoo : Reference := ⟨"a", "Foo", ReferenceType.CALLS, none, 0.8⟩

/-- Extractor behaviour for the two-chunk example: chunk `a` yields the
CALLS reference, chunk `b` yields nothing. -/
def exExtractRefs (c : Chunk) : List Reference :=
  if c.id = "a" then [exRefFoo] else []

/-- The graph state after phase 1 (`add_chunk` on both chunks): chunk `b`
defines `Foo`. -/
def exGraph0 : CodeGraph :=
  (CodeGraph.empty.add_chunk exChunkA []).add_chunk exChunkB
    [⟨"Foo", ElementType.FUNCTION, some "func Foo()", "b", some 10⟩]

/-- The result of `build_references` on the two-chunk example. -/
def exGraphBuilt : Option CodeGraph :=
  exGraph0.build_references [exChunkA, exChunkB] exExtractRefs

/-- A two-node graph with a single heavy edge `a → b`, used to show that
the seed re-enters `get_neighbors` at distance 2 through the incoming
direction of its own outgoing edge. -/
def exBackGraph : DiGraph :=
  ⟨["a", "b"], [("a", "b", ⟨"Foo", 0.9, ReferenceType.CALLS⟩)]⟩

/-- A well-formed `CodeGraph` snapshot used for the round-trip witness. -/
def exSnapshotGraph : CodeGraph :=
  { graph := ⟨["a", "b"], [("a", "b", ⟨"Foo", 0.96, ReferenceType.CALLS⟩)]⟩,
    element_index := [("Foo", ["b"])],
    chunk_elements := [("a", []), ("b", ["Foo"])],
    chunk_metadata := [("a", ⟨"a", [], 0.25⟩), ("b", ⟨"b", ["Foo"], 0.75⟩)] }

/-- Results sharing the single element `x`, not present in any graph
metadata: the diversity filter accepts both. -/
def exResultP : ChunkResult := ⟨"p", "text p", 0.9, ⟨["x"], "cangjie", none⟩⟩

def exResultQ : ChunkResult := ⟨"q", "text q", 0.8, ⟨["x"], "cangjie", none⟩⟩

def exResultR : ChunkResult := ⟨"r", "text r", 0.7, ⟨["y"], "cangjie", none⟩⟩

/-- Graph metadata holding the ids of the witness results. -/
def exDiverseMeta : List (String × ChunkNode) :=
  [("p", ⟨"p", ["x"], 0.5⟩), ("r", ⟨"r", ["y"], 0.5⟩)]

/-- The pre-existing chunk of the update scenario: defines `Foo`. -/
def exOldChunk : Chunk :=
  ⟨"old", "func Foo() {}", "old.md", 1, 10, "CODE", ⟨["Foo"], "cangjie", none⟩⟩

/-- The new chunk of the update scenario: references `Foo` but defines
nothing. -/
def exNewChunk : Chunk :=
  ⟨"new", "Foo()", "new.md", 1, 3, "MIXED", ⟨[], "cangjie", none⟩⟩

/-- The existing graph before the incremental update: only `exOldChunk`. -/
def exOldGraph : CodeGraph :=
  CodeGraph.empty.add_chunk exOldChunk
    [⟨"Foo", ElementType.FUNCTION, some "func Foo()", "old", some 1⟩]

/-- Element extraction for the update scenario: the new chunk defines
nothing. -/
def exUpdateExtractElems (_ : Chunk) : List CodeElement := []

/-- Reference extraction for the update scenario: the new chunk calls
`Foo`. -/
def exUpdateExtractRefs (c : Chunk) : List Reference :=
  if c.id = "new" then [⟨"new", "Foo", ReferenceType.CALLS, none, 1⟩] else []

/-- The outcome of `update_graph` on the update scenario (the centrality
oracle is irrelevant: the build aborts first). -/
def exUpdateResult : Option CodeGraph :=
  GraphBuilder.update_graph exUpdateExtractElems exUpdateExtractRefs
    (fun _ _ => 0) exOldGraph [exNewChunk] []

/-- Well-formedness of a `CodeGraph` state: the `networkx` graph is
well-formed and every Python dict has no duplicate keys. -/
def CodeGraph.Wf (g : CodeGraph) : Prop :=
  g.graph.Wf ∧
  (g.element_index.map Prod.fst).Nodup ∧
  (g.chunk_elements.map Prod.fst).Nodup ∧
  (g.chunk_metadata.map Prod.fst).Nodup

instance (g : CodeGraph) : Decidable g.Wf := by
  unfold CodeGraph.Wf; infer_instance

/-- The number of parallel edges stored for an ordered pair of nodes. -/
def DiGraph.countEdges (g : DiGraph) (u v : String) : ℕ :=
  (g.edges.filter (fun e => decide (e.1 = u) && decide (e.2.1 = v))).length

/-- The graph the two-chunk `build_references` example produces. -/
def exGraphResult : CodeGraph := exGraphBuilt.getD CodeGraph.empty

/-- A `CodeGraph` carrying `exBackGraph`, for the `get_neighbors` seed
counterexample. -/
def exBackCodeGraph : CodeGraph :=
  ⟨exBackGraph, [("Foo", ["b"])], [("a", []), ("b", ["Foo"])],
    [("a", ⟨"a", [], 0⟩), ("b", ⟨"b", ["Foo"], 0⟩)]⟩

/-- Claim C4 (code bug): the incremental `update_graph` aborts with a
`KeyError` (modelled as `none`) as soon as a new chunk references an
element defined only by a pre-existing chunk, instead of completing with
reference edges rebuilt only among the new chunk set. -/
theorem update_graph_cross_reference_keyerror : exUpdateResult = none := by
  simp [exUpdateResult, GraphBuilder.update_graph,
    CodeGraph.removeChunkForUpdate, CodeGraph.add_chunk,
    CodeGraph.build_references, CodeGraph.buildRefChunks,
    CodeGraph.buildRefList, CodeGraph.buildRefTargets, mkChunkDict,
    assocSet, assocLookup, lookupD, exOldGraph, exNewChunk, exOldChunk,
    exUpdateExtractElems, exUpdateExtractRefs, CodeGraph.empty,
    DiGraph.empty, DiGraph.addNode, List.find?]

theorem exWeight_eq :
    CodeGraph.calculate_edge_weight exChunkA exChunkB exRefFoo = 0.96 := by
  simp [CodeGraph.calculate_edge_weight, exChunkA, exChunkB, exRefFoo]
  norm_num [min_def]

theorem exChunkA_id : exChunkA.id = "a" := rfl

theorem exRefFoo_target : exRefFoo.target_element = "Foo" := rfl

theorem exRefFoo_kind : exRefFoo.reference_type = ReferenceType.CALLS := rfl

theorem exChunkB_id : exChunkB.id = "b" := rfl

theorem exGraphBuilt_eq :
    exGraphBuilt = some
      { graph := ⟨["a", "b"], [("a", "b", ⟨"Foo", 0.96, ReferenceType.CALLS⟩)]⟩,
        element_index := [("Foo", ["b"])],
        chunk_elements := [("a", []), ("b", ["Foo"])],
        chunk_metadata := [("a", ⟨"a", [], 0⟩), ("b", ⟨"b", ["Foo"], 0⟩)] } := by
  simp [exGraphBuilt, exGraph0, CodeGraph.build_references,
    CodeGraph.buildRefChunks, CodeGraph.buildRefList,
    CodeGraph.buildRefTargets, mkChunkDict, CodeGraph.add_chunk,
    CodeGraph.add_reference_edge, assocSet, assocLookup, lookupD,
    CodeGraph.empty, DiGraph.empty, DiGraph.addNode, DiGraph.addEdge,
    DiGraph.findEdge, List.find?, exExtractRefs, exChunkA_id, exChunkB_id,
    exRefFoo_target, exRefFoo_kind, exWeight_eq]

theorem exGraphResult_eq :
    exGraphResult =
      { graph := ⟨["a", "b"], [("a", "b", ⟨"Foo", 0.96, ReferenceType.CALLS⟩)]⟩,
        element_index := [("Foo", ["b"])],
        chunk_elements := [("a", []), ("b", ["Foo"])],
        chunk_metadata := [("a", ⟨"a", [], 0⟩), ("b", ⟨"b", ["Foo"], 0⟩)] } := by
  simp [exGraphResult, exGraphBuilt_eq]

/-- Claim C2: chunks `a` and `b` share a file with start lines 9 apart; a
CALLS reference of confidence 0.8 from `a` to the element `Foo` defined
only in `b` produces the edge from `a` to `b` with weight exactly 0.96,
and `b` is a member of `get_neighbors(a, 1, 0.3)`. -/
theorem calls_edge_weight_concrete :
    exGraphBuilt = some exGraphResult ∧
    exGraphResult.graph.findEdge "a" "b" =
      some ⟨"Foo", (0.96 : ℚ), ReferenceType.CALLS⟩ ∧
    "b" ∈ exGraphResult.get_neighbors "a" 1 (0.3 : ℚ) := by
  refine ⟨by rw [exGraphBuilt_eq, exGraphResult_eq], ?_, ?_⟩
  · rw [exGraphResult_eq]
    simp [DiGraph.findEdge, List.find?]
  · rw [exGraphResult_eq]
    have h : ((0.3 : ℚ) ≤ 0.96) := by norm_num
    simp [CodeGraph.get_neighbors, DiGraph.get_neighbors,
      DiGraph.getNeighborsLoop, DiGraph.adjacentQualified,
      DiGraph.successors, DiGraph.predecessors, DiGraph.edgeQualifies,
      DiGraph.findEdge, List.find?, h]

theorem calculate_edge_weight_eq_amended (s t : Chunk) (r : Reference) :
    CodeGraph.calculate_edge_weight s t r = amendedEdgeWeight s t r := by
  simp only [CodeGraph.calculate_edge_weight, amendedEdgeWeight, specBase,
    specSameFileBonus, specProximityBonus]
  rw [min_comm]
  cases r.reference_type <;> split_ifs <;> first | ring | simp_all

/-- Claim C1 (counterexample): on the two-chunk example, `build_references`
stores the edge weight 0.96 = min(1.0, 1.2 times 0.8), while the formula
the claim states, `min(1.0, base + same_file_bonus + proximity_bonus)
times confidence`, yields min(1.0, 1.2) times 0.8 = 0.8. -/
theorem edge_weight_claim_counterexample :
    exGraphBuilt = some exGraphResult ∧
    exGraphResult.graph.findEdge "a" "b" =
      some ⟨"Foo", (0.96 : ℚ), ReferenceType.CALLS⟩ ∧
    claimedEdgeWeight exChunkA exChunkB exRefFoo = 0.8 ∧
    ((0.96 : ℚ) ≠ 0.8) := by
  refine ⟨by rw [exGraphBuilt_eq, exGraphResult_eq], ?_, ?_, by norm_num⟩
  · rw [exGraphResult_eq]
    simp [DiGraph.findEdge, List.find?]
  · simp [claimedEdgeWeight, specBase, specSameFileBonus,
      specProximityBonus, exChunkA, exChunkB, exRefFoo]
    norm_num [min_def]

/-- Claim C5 (counterexample): two distinct results with identical non-empty
element sets whose chunk ids are absent from the graph metadata are both
accepted by the greedy pass, with Jaccard overlap 1 > 0.7. -/
theorem diversity_filter_claim_counterexample :
    exResultP ∈ greedyDiversitySelected [] [exResultP, exResultQ, exResultR] 2 ∧
    exResultQ ∈ greedyDiversitySelected [] [exResultP, exResultQ, exResultR] 2 ∧
    exResultP ≠ exResultQ ∧
    ¬(jaccardOverlap exResultP.metadata.code_elements.toFinset
        exResultQ.metadata.code_elements.toFinset ≤ (0.7 : ℚ)) := by
  refine ⟨?_, ?_, by simp [exResultP, exResultQ], ?_⟩
  · simp [greedyDiversitySelected, greedyDiversityLoop, is_diverse_enough,
      assocLookup, List.find?]
  · simp [greedyDiversitySelected, greedyDiversityLoop, is_diverse_enough,
      assocLookup, List.find?]
  · simp [jaccardOverlap, exResultP, exResultQ]
    norm_num

/-- Claim C6 (counterexample): in a self-loop-free graph with the single
heavy edge from `a` to `b`, `get_neighbors(a, 2, 0.3)` contains the seed
`a` itself, re-reached at the second hop through the incoming direction
of its own outgoing edge. -/
theorem get_neighbors_seed_claim_counterexample :
    "a" ∈ exBackCodeGraph.get_neighbors "a" 2 (0.3 : ℚ) ∧
    (∀ e ∈ exBackCodeGraph.graph.edges, e.1 ≠ e.2.1) := by
  constructor
  · have h : ((0.3 : ℚ) ≤ 0.9) := by norm_num
    simp [CodeGraph.get_neighbors, DiGraph.get_neighbors,
      DiGraph.getNeighborsLoop, DiGraph.adjacentQualified,
      DiGraph.successors, DiGraph.predecessors, DiGraph.edgeQualifies,
      DiGraph.findEdge, List.find?, exBackCodeGraph, exBackGraph, h]
  · simp [exBackCodeGraph, exBackGraph]

theorem mem_successors {g : DiGraph} {x y : String} :
    y ∈ g.successors x ↔ ∃ e ∈ g.edges, e.1 = x ∧ e.2.1 = y := by
  simp only [DiGraph.successors, List.mem_map, List.mem_filter,
    decide_eq_true_eq]
  tauto

theorem mem_predecessors {g : DiGraph} {x y : String} :
    y ∈ g.predecessors x ↔ ∃ e ∈ g.edges, e.1 = y ∧ e.2.1 = x := by
  simp only [DiGraph.predecessors, List.mem_map, List.mem_filter,
    decide_eq_true_eq]
  tauto

theorem mem_adjacentQualified {g : DiGraph} {w : ℚ} {x y : String}
    (h : y ∈ g.adjacentQualified w x) :
    y ∈ g.successors x ∨ y ∈ g.predecessors x := by
  simp only [DiGraph.adjacentQualified, List.mem_append, List.mem_filter] at h
  tauto

/-- Claim C6 (amended): in a graph without self-loop edges (the invariant
`add_reference_edge` maintains), the seed chunk is not a member of
`get_neighbors(x, max_distance, min_weight)` whenever `max_distance` is
at most 1; at larger distances the seed can be re-visited. -/
theorem get_neighbors_seed_excluded_amended (g : CodeGraph) (x : String) (d : ℕ) (w : ℚ)
    (hd : d ≤ 1) (hloop : ∀ e ∈ g.graph.edges, e.1 ≠ e.2.1) :
    x ∉ g.get_neighbors x d w := by
  unfold CodeGraph.get_neighbors DiGraph.get_neighbors
  split
  · interval_cases d
    · simp [DiGraph.getNeighborsLoop]
    · intro hmem
      have hmem' : x ∈ g.graph.adjacentQualified w x := by
        simp only [DiGraph.getNeighborsLoop, List.foldr_cons, List.foldr_nil,
          List.append_nil, List.nil_append] at hmem
        split at hmem <;> simpa [DiGraph.getNeighborsLoop, List.mem_dedup] using hmem
      rcases mem_adjacentQualified hmem' with hs | hp
      · rcases mem_successors.mp hs with ⟨e, he, h1, h2⟩
        exact hloop e he (h1.trans h2.symm)
      · rcases mem_predecessors.mp hp with ⟨e, he, h1, h2⟩
        exact hloop e he (h1.trans h2.symm)
  · simp

/-- Claim C7: the ranker assigns `combined_score = 0.7 times semantic_score
+ 0.3 times graph_score`, where `graph_score` is 0 unless graph
re-ranking is enabled and the chunk id is present in the graph, and
otherwise `0.3 times centrality + 0.4 times element_overlap_ratio + 0.3
times intent_score`, the overlap ratio being `card(chunk inter query) /
card(query)` and 0 when the query has no recognized elements. -/
theorem combined_score_formula (meta : List (String × ChunkNode)) (chunk : ChunkResult)
    (qa : QueryAnalysis) (config : RetrievalConfig) :
    calculate_combined_score meta chunk qa config =
      0.7 * chunk.score + 0.3 * specGraphScore meta chunk qa config := by
  unfold calculate_combined_score specGraphScore specElementOverlapRatio
  cases hr : config.rerank_by_graph <;>
    cases hm : assocLookup meta chunk.id <;> simp only [] <;> try ring
  by_cases hq : qa.code_elements.toFinset = ∅ <;> simp [hq] <;> ring

theorem addNode_edges (g : DiGraph) (n : String) :
    (g.addNode n).edges = g.edges := by
  unfold DiGraph.addNode; split <;> rfl

theorem find?_replace_self (u v : String) (d : EdgeData)
    (l : List (String × String × EdgeData))
    (h : (l.find? (fun e => decide (e.1 = u) && decide (e.2.1 = v))).isSome) :
    (l.map (fun e => if e.1 = u ∧ e.2.1 = v then (u, v, d) else e)).find?
      (fun e => decide (e.1 = u) && decide (e.2.1 = v)) = some (u, v, d) := by
  induction l with
  | nil => simp at h
  | cons a l ih =>
    by_cases ha : a.1 = u ∧ a.2.1 = v
    · simp [List.find?_cons, ha]
    · have hpa : (decide (a.1 = u) && decide (a.2.1 = v)) = false := by
        rw [Bool.and_eq_false_iff]
        rcases not_and_or.mp ha with h' | h'
        · exact Or.inl (by simpa using h')
        · exact Or.inr (by simpa using h')
      simp only [List.find?_cons, hpa] at h
      simp only [List.map_cons, if_neg ha, List.find?_cons, hpa]
      exact ih h

theorem find?_replace_other (u v a b : String) (d : EdgeData)
    (l : List (String × String × EdgeData)) (hne : ¬(a = u ∧ b = v)) :
    (l.map (fun e => if e.1 = u ∧ e.2.1 = v then (u, v, d) else e)).find?
      (fun e => decide (e.1 = a) && decide (e.2.1 = b)) =
    l.find? (fun e => decide (e.1 = a) && decide (e.2.1 = b)) := by
  induction l with
  | nil => rfl
  | cons x l ih =>
    by_cases hx : x.1 = u ∧ x.2.1 = v
    · have hq : (decide (x.1 = a) && decide (x.2.1 = b)) = false := by
        rw [Bool.and_eq_false_iff]
        rcases not_and_or.mp hne with h' | h'
        · exact Or.inl (by simp [hx.1]; intro hc; exact h' hc.symm)
        · exact Or.inr (by simp [hx.2]; intro hc; exact h' hc.symm)
      have hq' : (decide ((u : String) = a) && decide ((v : String) = b)) = false := by
        rw [Bool.and_eq_false_iff]
        rcases not_and_or.mp hne with h' | h'
        · exact Or.inl (by simp; intro hc; exact h' hc.symm)
        · exact Or.inr (by simp; intro hc; exact h' hc.symm)
      simp only [List.map_cons, if_pos hx, List.find?_cons, hq, hq']
      exact ih
    · simp only [List.map_cons, if_neg hx, List.find?_cons]
      cases hpx : (decide (x.1 = a) && decide (x.2.1 = b)) <;> simp [ih]

theorem addEdge_edges (g : DiGraph) (u v : String) (d : EdgeData) :
    (g.addEdge u v d).edges =
      if (g.findEdge u v).isSome then
        g.edges.map (fun e => if e.1 = u ∧ e.2.1 = v then (u, v, d) else e)
      else g.edges ++ [(u, v, d)] := by
  have h : ((g.addNode u).addNode v).findEdge u v = g.findEdge u v := by
    unfold DiGraph.findEdge
    rw [addNode_edges, addNode_edges]
  unfold DiGraph.addEdge
  simp only [h, addNode_edges]
  by_cases hc : (g.findEdge u v).isSome <;> simp [hc]

theorem findEdge_addEdge_self (g : DiGraph) (u v : String) (d : EdgeData) :
    (g.addEdge u v d).findEdge u v = some d := by
  have he := addEdge_edges g u v d
  by_cases hc : (g.findEdge u v).isSome
  · rw [if_pos hc] at he
    unfold DiGraph.findEdge
    rw [he]
    have hf : (g.edges.find?
        (fun e => decide (e.1 = u) && decide (e.2.1 = v))).isSome := by
      unfold DiGraph.findEdge at hc
      simpa using hc
    rw [find?_replace_self u v d g.edges hf]
    rfl
  · rw [if_neg hc] at he
    unfold DiGraph.findEdge
    rw [he, List.find?_append]
    have hf : g.edges.find?
        (fun e => decide (e.1 = u) && decide (e.2.1 = v)) = none := by
      unfold DiGraph.findEdge at hc
      rcases hfx : g.edges.find?
          (fun e => decide (e.1 = u) && decide (e.2.1 = v)) with _ | x
      · exact hfx
      · exact absurd (by rw [hfx]; rfl) hc
    rw [hf]
    simp [List.find?_cons]

theorem findEdge_addEdge_other (g : DiGraph) (u v a b : String) (d : EdgeData)
    (hne : ¬(a = u ∧ b = v)) :
    (g.addEdge u v d).findEdge a b = g.findEdge a b := by
  have he := addEdge_edges g u v d
  unfold DiGraph.findEdge
  rw [he]
  split
  · rw [find?_replace_other u v a b d g.edges hne]
  · rw [List.find?_append]
    have hq : ((fun e => decide (e.1 = a) && decide (e.2.1 = b))
        ((u, v, d) : String × String × EdgeData)) = false := by
      rw [Bool.and_eq_false_iff]
      rcases not_and_or.mp hne with h' | h'
      · exact Or.inl (by simp; intro hc; exact h' hc.symm)
      · exact Or.inr (by simp; intro hc; exact h' hc.symm)
    simp [List.find?_cons, hq]

theorem filter_key_length_le_one (l : List (String × String × EdgeData))
    (h : (l.map (fun e => (e.1, e.2.1))).Nodup) (a b : String) :
    (l.filter (fun e => decide (e.1 = a) && decide (e.2.1 = b))).length ≤ 1 := by
  induction l with
  | nil => simp
  | cons x l ih =>
    simp only [List.map_cons, List.nodup_cons] at h
    by_cases hx : x.1 = a ∧ x.2.1 = b
    · have hrest : l.filter (fun e => decide (e.1 = a) && decide (e.2.1 = b)) = [] := by
        rw [List.filter_eq_nil_iff]
        intro e he hq
        simp only [Bool.and_eq_true, decide_eq_true_eq] at hq
        exact h.1 (List.mem_map.mpr ⟨e, he, by rw [hq.1, hq.2, hx.1, hx.2]⟩)
      simp [List.filter_cons, hx, hrest]
    · have hq : (decide (x.1 = a) && decide (x.2.1 = b)) = false := by
        rw [Bool.and_eq_false_iff]
        rcases not_and_or.mp hx with h' | h'
        · exact Or.inl (by simpa using h')
        · exact Or.inr (by simpa using h')
      simp only [List.filter_cons, hq, if_neg]
      exact ih h.2

theorem addEdge_keys_nodup (g : DiGraph) (u v : String) (d : EdgeData)
    (h : (g.edges.map (fun e => (e.1, e.2.1))).Nodup) :
    (((g.addEdge u v d).edges).map (fun e => (e.1, e.2.1))).Nodup := by
  rw [addEdge_edges]
  split
  case isTrue _ =>
    have hmm : (g.edges.map (fun e => if e.1 = u ∧ e.2.1 = v then (u, v, d) else e)).map
        (fun e => (e.1, e.2.1)) = g.edges.map (fun e => (e.1, e.2.1)) := by
      rw [List.map_map]
      apply List.map_congr_left
      intro e _
      by_cases hc : e.1 = u ∧ e.2.1 = v
      · simp [hc, Function.comp, hc.1, hc.2]
      · simp [hc, Function.comp]
    rw [hmm]; exact h
  case isFalse hn =>
    rw [List.map_append]
    simp only [List.map_cons, List.map_nil]
    rw [List.nodup_append]
    refine ⟨h, List.nodup_singleton _, ?_⟩
    intro p hp
    simp only [List.mem_singleton]
    intro hpe
    rw [List.mem_map] at hp
    obtain ⟨e, he, hke⟩ := hp
    apply hn
    unfold DiGraph.findEdge
    have hkey : e.1 = u ∧ e.2.1 = v := by
      have := hke.trans hpe
      exact ⟨congrArg Prod.fst this, congrArg Prod.snd this⟩
    rcases hf : g.edges.find? (fun e => decide (e.1 = u) && decide (e.2.1 = v)) with _ | x
    · rw [List.find?_eq_none] at hf
      exact absurd (by simp [hkey.1, hkey.2]) (hf e he)
    · rw [hf]; rfl

/-- Claim C10: `add_reference_edge` on a well-formed graph keeps at most one
edge for every ordered pair of chunks; inserting a second reference for
the same ordered pair of distinct chunks overwrites the stored element,
weight and reference-type attributes with those of the latest reference
and leaves every other ordered pair untouched. -/
theorem add_reference_edge_last_wins (g : CodeGraph) (hWf : g.graph.Wf) (u v element : String)
    (weight : ℚ) (ty : ReferenceType) (hne : u ≠ v) :
    (g.add_reference_edge u v element weight ty).graph.findEdge u v =
      some ⟨element, weight, ty⟩ ∧
    (∀ a b,
      (g.add_reference_edge u v element weight ty).graph.countEdges a b ≤ 1) ∧
    (∀ a b, ¬(a = u ∧ b = v) →
      (g.add_reference_edge u v element weight ty).graph.findEdge a b =
        g.graph.findEdge a b) := by
  unfold CodeGraph.add_reference_edge
  rw [if_neg hne]
  refine ⟨findEdge_addEdge_self _ _ _ _, ?_, ?_⟩
  · intro a b
    unfold DiGraph.countEdges
    exact filter_key_length_le_one _ (addEdge_keys_nodup _ _ _ _ hWf.2.1) a b
  · intro a b hab
    exact findEdge_addEdge_other _ _ _ _ _ _ hab

theorem addNode_mem (g : DiGraph) (n : String) (h : n ∈ g.nodes) :
    g.addNode n = g := by
  unfold DiGraph.addNode; rw [if_pos h]

theorem findEdge_eq_none_of_key_not_mem (g : DiGraph) (u v : String)
    (h : (u, v) ∉ g.edges.map (fun e => (e.1, e.2.1))) :
    g.findEdge u v = none := by
  unfold DiGraph.findEdge
  rw [Option.map_eq_none', List.find?_eq_none]
  intro e he
  simp only [Bool.and_eq_true, decide_eq_true_eq, not_and]
  intro h1 h2
  exact h (List.mem_map.mpr ⟨e, he, by rw [h1, h2]⟩)

theorem addEdge_append (g : DiGraph) (u v : String) (d : EdgeData)
    (hu : u ∈ g.nodes) (hv : v ∈ g.nodes) (hn : g.findEdge u v = none) :
    g.addEdge u v d = ⟨g.nodes, g.edges ++ [(u, v, d)]⟩ := by
  unfold DiGraph.addEdge
  simp only [addNode_mem g u hu, addNode_mem g v hv, hn]
  rfl

theorem foldl_addNode (l : List String) :
    ∀ g0 : DiGraph, (∀ x ∈ l, x ∉ g0.nodes) → l.Nodup →
      l.foldl DiGraph.addNode g0 = ⟨g0.nodes ++ l, g0.edges⟩ := by
  induction l with
  | nil => intro g0 _ _; simp
  | cons a l ih =>
    intro g0 hnot hnd
    rw [List.nodup_cons] at hnd
    rw [List.foldl_cons]
    have ha : a ∉ g0.nodes := hnot a (List.mem_cons_self a l)
    have h1 : g0.addNode a = ⟨g0.nodes ++ [a], g0.edges⟩ := by
      unfold DiGraph.addNode; rw [if_neg ha]
    rw [h1, ih]
    · simp
    · intro x hx
      simp only [List.mem_append, List.mem_singleton]
      rintro (h | rfl)
      · exact hnot x (List.mem_cons_of_mem a hx) h
      · exact hnd.1 hx
    · exact hnd.2

theorem foldl_addEdge (links : List (String × String × EdgeData)) :
    ∀ g0 : DiGraph,
      (links.map (fun e => (e.1, e.2.1))).Nodup →
      (∀ e ∈ links, (e.1, e.2.1) ∉ g0.edges.map (fun e => (e.1, e.2.1))) →
      (∀ e ∈ links, e.1 ∈ g0.nodes ∧ e.2.1 ∈ g0.nodes) →
      links.foldl (fun g e => g.addEdge e.1 e.2.1 e.2.2) g0 =
        ⟨g0.nodes, g0.edges ++ links⟩ := by
  induction links with
  | nil => intro g0 _ _ _; simp
  | cons e links ih =>
    intro g0 hnd hkeys hends
    rw [List.map_cons, List.nodup_cons] at hnd
    obtain ⟨hhead, htail⟩ := hnd
    rw [List.foldl_cons]
    have hne : g0.findEdge e.1 e.2.1 = none :=
      findEdge_eq_none_of_key_not_mem _ _ _
        (hkeys e (List.mem_cons_self e links))
    have hend := hends e (List.mem_cons_self e links)
    rw [addEdge_append g0 e.1 e.2.1 e.2.2 hend.1 hend.2 hne]
    rw [ih ⟨g0.nodes, g0.edges ++ [(e.1, e.2.1, e.2.2)]⟩ htail]
    · simp
    · intro e' he'
      simp only [List.map_append, List.mem_append, List.map_cons,
        List.map_nil, List.mem_singleton]
      rintro (h | h)
      · exact hkeys e' (List.mem_cons_of_mem e he') h
      · exact hhead (by rw [← h]; exact List.mem_map.mpr ⟨e', he', rfl⟩)
    · intro e' he'
      exact hends e' (List.mem_cons_of_mem e he')

theorem assocLookup_append {α : Type} (l1 l2 : List (String × α)) (k : String) :
    assocLookup (l1 ++ l2) k =
      (assocLookup l1 k).or (assocLookup l2 k) := by
  unfold assocLookup
  rw [List.find?_append]
  cases l1.find? (fun p => decide (p.1 = k)) <;> rfl

theorem foldl_assocSet {α : Type} (l : List (String × α)) :
    ∀ acc : List (String × α),
      (∀ p ∈ l, assocLookup acc p.1 = none) → (l.map Prod.fst).Nodup →
      l.foldl (fun m p => assocSet m p.1 p.2) acc = acc ++ l := by
  induction l with
  | nil => intro acc _ _; simp
  | cons p l ih =>
    intro acc hnone hnd
    rw [List.map_cons, List.nodup_cons] at hnd
    obtain ⟨hhead, htail⟩ := hnd
    rw [List.foldl_cons]
    have hp : assocLookup acc p.1 = none := hnone p (List.mem_cons_self p l)
    have h1 : assocSet acc p.1 p.2 = acc ++ [p] := by
      unfold assocSet
      rw [hp]
      rfl
    rw [h1, ih]
    · simp
    · intro q hq
      rw [assocLookup_append, hnone q (List.mem_cons_of_mem p hq)]
      have hqk : q.1 ≠ p.1 := by
        intro hc
        exact hhead (by rw [← hc]; exact List.mem_map.mpr ⟨q, hq, rfl⟩)
      simp [assocLookup, List.find?, Ne.symm hqk]
    · exact htail

theorem metadata_roundtrip (l : List (String × ChunkNode)) :
    ((l.map (fun p => (p.1, SavedChunkNode.mk p.2.chunk_id p.2.code_elements
        p.2.centrality_score))).map (fun p => (p.1, ChunkNode.mk p.2.chunk_id
        p.2.code_elements p.2.centrality_score))) = l := by
  rw [List.map_map]
  conv_rhs => rw [← List.map_id l]
  apply List.map_congr_left
  intro p _
  rfl

theorem load_save_roundtrip (g : CodeGraph) (h : g.Wf) :
    CodeGraph.load_from_file g.save_to_file = g := by
  obtain ⟨⟨hn, hk, he⟩, hei, _, _⟩ := h
  rcases g with ⟨gr, ei, ce, cm⟩
  simp only [CodeGraph.save_to_file, CodeGraph.load_from_file, nodeLinkGraph]
  simp only at hn hk he hei
  have h1 : gr.nodes.foldl DiGraph.addNode DiGraph.empty =
      ⟨gr.nodes, []⟩ := by
    rw [foldl_addNode gr.nodes DiGraph.empty
      (by intro x _; simp [DiGraph.empty]) hn]
    simp [DiGraph.empty]
  have h2 : gr.edges.foldl (fun g e => g.addEdge e.1 e.2.1 e.2.2)
      (⟨gr.nodes, []⟩ : DiGraph) = ⟨gr.nodes, gr.edges⟩ := by
    rw [foldl_addEdge gr.edges ⟨gr.nodes, []⟩ hk (by intro e _; simp)
      (by intro e hee; exact he e hee)]
    simp
  congr 1
  · rw [h1, h2]
  · rw [foldl_assocSet ei [] (by intro p _; rfl) hei]
    simp
  · exact metadata_roundtrip cm

/-- Claim C3: loading the snapshot produced by saving a well-formed graph
yields a graph that gives identical answers to every read operation:
node membership, edge membership with attributes, per-pair edge data,
the element-name index, and per-chunk metadata including centrality
scores. -/
theorem snapshot_roundtrip_read_equiv (g : CodeGraph) (h : g.Wf) :
    ReadEquiv (CodeGraph.load_from_file g.save_to_file) g := by
  rw [load_save_roundtrip g h]
  exact ⟨fun _ => Iff.rfl, fun _ => Iff.rfl, fun _ _ => rfl, fun _ => rfl,
    fun _ => rfl⟩

theorem snapshot_roundtrip_read_equiv_witness :
    exSnapshotGraph.Wf ∧
    ReadEquiv (CodeGraph.load_from_file exSnapshotGraph.save_to_file)
      exSnapshotGraph :=
  ⟨by decide, snapshot_roundtrip_read_equiv exSnapshotGraph (by decide)⟩

theorem add_reference_edge_last_wins_witness :
    exSnapshotGraph.graph.Wf ∧ ("a" : String) ≠ "b" ∧
    ((exSnapshotGraph.add_reference_edge "a" "b" "Bar" 0.5
        ReferenceType.MENTIONS).graph.findEdge "a" "b" =
      some ⟨"Bar", 0.5, ReferenceType.MENTIONS⟩ ∧
    (∀ a b, (exSnapshotGraph.add_reference_edge "a" "b" "Bar" 0.5
        ReferenceType.MENTIONS).graph.countEdges a b ≤ 1) ∧
    (∀ a b, ¬(a = "a" ∧ b = "b") →
      (exSnapshotGraph.add_reference_edge "a" "b" "Bar" 0.5
          ReferenceType.MENTIONS).graph.findEdge a b =
        exSnapshotGraph.graph.findEdge a b)) :=
  ⟨by decide, by decide,
    add_reference_edge_last_wins exSnapshotGraph (by decide) "a" "b" "Bar" 0.5
      ReferenceType.MENTIONS (by decide)⟩

theorem jaccardOverlap_comm (a b : Finset String) :
    jaccardOverlap a b = jaccardOverlap b a := by
  unfold jaccardOverlap
  rw [Finset.inter_comm, Finset.union_comm]

theorem jaccardOverlap_le_of_empty {a b : Finset String}
    (h : a = ∅ ∨ b = ∅) :
    jaccardOverlap a b ≤ 0.7 := by
  have hz : jaccardOverlap a b = 0 := by
    unfold jaccardOverlap
    rcases h with h | h <;> simp [h]
  rw [hz]
  norm_num

theorem is_diverse_enough_spec {meta : List (String × ChunkNode)}
    {c : ChunkResult} {sel : List ChunkResult}
    (h : is_diverse_enough meta c sel = true) :
    ∀ s ∈ sel, (assocLookup meta c.id).isSome →
      (assocLookup meta s.id).isSome →
      jaccardOverlap c.metadata.code_elements.toFinset
        s.metadata.code_elements.toFinset ≤ 0.7 := by
  intro s hs hc hsid
  rw [is_diverse_enough, List.all_eq_true] at h
  have hb := h s hs
  simp only [hc, hsid, and_self, if_true] at hb
  by_cases he : c.metadata.code_elements.toFinset ≠ ∅ ∧
      s.metadata.code_elements.toFinset ≠ ∅
  · rw [if_pos he] at hb
    simpa [not_lt] using of_decide_eq_true hb
  · rcases not_and_or.mp he with h' | h'
    · exact jaccardOverlap_le_of_empty (Or.inl (not_not.mp h'))
    · exact jaccardOverlap_le_of_empty (Or.inr (not_not.mp h'))

theorem pairwise_diverse_append {meta : List (String × ChunkNode)}
    {sel : List ChunkResult} {c : ChunkResult}
    (hsel : PairwiseDiverse meta sel)
    (hdiv : is_diverse_enough meta c sel = true) :
    PairwiseDiverse meta (sel ++ [c]) := by
  intro a ha b hb hab hma hmb
  rw [List.mem_append, List.mem_singleton] at ha hb
  rcases ha with ha | rfl <;> rcases hb with hb | rfl
  · exact hsel a ha b hb hab hma hmb
  · rw [jaccardOverlap_comm]
    exact is_diverse_enough_spec hdiv a ha hmb hma
  · exact is_diverse_enough_spec hdiv b hb hma hmb
  · exact absurd rfl hab

theorem greedyDiversityLoop_pairwise (meta : List (String × ChunkNode))
    (target : ℕ) :
    ∀ (cand : List ChunkResult) (sel : List ChunkResult),
      PairwiseDiverse meta sel →
      PairwiseDiverse meta (greedyDiversityLoop meta target cand sel) := by
  intro cand
  induction cand with
  | nil => intro sel h; exact h
  | cons c rest ih =>
    intro sel h
    rw [greedyDiversityLoop]
    split
    · exact h
    · split
      case isTrue hdiv => exact ih _ (pairwise_diverse_append h hdiv)
      case isFalse _ => exact ih _ h

/-- Claim C5 (amended): any two distinct results of the greedily accepted
prefix of the diversity filter whose chunk ids are both present in the
graph chunk metadata have element-set Jaccard overlap at most 0.7 (the
filter skips the overlap check when either id is outside the graph). -/
theorem diversity_filter_greedy_pairwise_amended (meta : List (String × ChunkNode))
    (chunks : List ChunkResult) (target : ℕ) (a b : ChunkResult)
    (ha : a ∈ greedyDiversitySelected meta chunks target)
    (hb : b ∈ greedyDiversitySelected meta chunks target) (hab : a ≠ b)
    (hma : (assocLookup meta a.id).isSome)
    (hmb : (assocLookup meta b.id).isSome) :
    jaccardOverlap a.metadata.code_elements.toFinset
      b.metadata.code_elements.toFinset ≤ 0.7 := by
  unfold greedyDiversitySelected at ha hb
  match chunks, ha, hb with
  | top :: rest, ha, hb =>
    have hbase : PairwiseDiverse meta [top] := by
      intro x hx y hy hxy _ _
      rw [List.mem_singleton] at hx hy
      exact absurd (hx.trans hy.symm) hxy
    exact greedyDiversityLoop_pairwise meta target rest [top] hbase
      a ha b hb hab hma hmb

theorem exDiverse_step :
    is_diverse_enough exDiverseMeta exResultR [exResultP] = true := by
  simp [is_diverse_enough, exDiverseMeta, exResultR, exResultP, assocLookup,
    List.find?, jaccardOverlap]
  norm_num

theorem diversity_filter_greedy_pairwise_amended_witness :
    exResultP ∈ greedyDiversitySelected exDiverseMeta
      [exResultP, exResultR, exResultQ] 2 ∧
    exResultR ∈ greedyDiversitySelected exDiverseMeta
      [exResultP, exResultR, exResultQ] 2 ∧
    exResultP ≠ exResultR ∧
    (assocLookup exDiverseMeta exResultP.id).isSome = true ∧
    (assocLookup exDiverseMeta exResultR.id).isSome = true ∧
    jaccardOverlap exResultP.metadata.code_elements.toFinset
      exResultR.metadata.code_elements.toFinset ≤ 0.7 := by
  have hsel : greedyDiversitySelected exDiverseMeta
      [exResultP, exResultR, exResultQ] 2 = [exResultP, exResultR] := by
    simp [greedyDiversitySelected, greedyDiversityLoop, exDiverse_step]
  have h1 : exResultP ∈ greedyDiversitySelected exDiverseMeta
      [exResultP, exResultR, exResultQ] 2 := by rw [hsel]; simp
  have h2 : exResultR ∈ greedyDiversitySelected exDiverseMeta
      [exResultP, exResultR, exResultQ] 2 := by rw [hsel]; simp
  refine ⟨h1, h2, by decide, by decide, by decide,
    diversity_filter_greedy_pairwise_amended exDiverseMeta [exResultP, exResultR, exResultQ] 2
      exResultP exResultR h1 h2 (by decide) (by decide) (by decide)⟩

theorem get_neighbors_seed_excluded_amended_witness :
    (1 : ℕ) ≤ 1 ∧ (∀ e ∈ exBackCodeGraph.graph.edges, e.1 ≠ e.2.1) ∧
    "a" ∉ exBackCodeGraph.get_neighbors "a" 1 (0.3 : ℚ) :=
  ⟨le_refl 1, by decide,
    get_neighbors_seed_excluded_amended exBackCodeGraph "a" 1 0.3 (le_refl 1) (by decide)⟩

theorem mem_foldr_append {l : List String} {f : String → List String}
    {x : String} :
    x ∈ l.foldr (fun u acc => f u ++ acc) [] ↔ ∃ u ∈ l, x ∈ f u := by
  induction l with
  | nil => simp
  | cons a l ih => simp [List.foldr_cons, List.mem_append, ih]

theorem mem_reachList_succ {g : DiGraph} {s : String} {n : ℕ} {x : String} :
    x ∈ g.reachList s (n + 1) ↔
      x ∈ g.reachList s n ∨ ∃ u ∈ g.reachList s n, x ∈ g.successors u := by
  rw [DiGraph.reachList]
  simp only [List.mem_dedup, List.mem_append, mem_foldr_append]

theorem self_mem_reachList (g : DiGraph) (s : String) (n : ℕ) :
    s ∈ g.reachList s n := by
  induction n with
  | zero => simp [DiGraph.reachList]
  | succ n ih => exact mem_reachList_succ.mpr (Or.inl ih)

theorem reachList_mono_succ (g : DiGraph) (s : String) (n : ℕ) :
    g.reachList s n ⊆ g.reachList s (n + 1) := by
  intro x hx
  exact mem_reachList_succ.mpr (Or.inl hx)

theorem reachList_mono (g : DiGraph) (s : String) {m n : ℕ} (h : m ≤ n) :
    g.reachList s m ⊆ g.reachList s n := by
  intro x hx
  induction h with
  | refl => exact hx
  | step _ ih => exact reachList_mono_succ g s _ ih

theorem reachList_sound (g : DiGraph) (s : String) (n : ℕ) :
    ∀ x ∈ g.reachList s n, g.Reaches s x := by
  induction n with
  | zero =>
    intro x hx
    rw [DiGraph.reachList, List.mem_singleton] at hx
    rw [hx]
    exact Relation.ReflTransGen.refl
  | succ n ih =>
    intro x hx
    rcases mem_reachList_succ.mp hx with h | ⟨u, hu, hsucc⟩
    · exact ih x h
    · exact Relation.ReflTransGen.tail (ih u hu) hsucc

theorem pathTo_isSome_iff (g : DiGraph) (s : String) :
    ∀ (n : ℕ) (t : String),
      (g.pathTo s n t).isSome ↔ t ∈ g.reachList s n := by
  intro n
  induction n with
  | zero =>
    intro t
    rw [DiGraph.pathTo, DiGraph.reachList]
    by_cases h : t = s <;> simp [h]
  | succ n ih =>
    intro t
    rw [DiGraph.pathTo]
    by_cases hts : t = s
    · simp only [if_pos hts, Option.isSome_some, true_iff]
      rw [hts]
      exact self_mem_reachList g s (n + 1)
    · rw [if_neg hts]
      by_cases hmem : t ∈ g.reachList s n
      · rw [if_pos hmem, ih]
        simp only [hmem, true_iff]
        exact reachList_mono_succ g s n hmem
      · rw [if_neg hmem]
        rcases hf : (g.reachList s n).find?
            (fun u => decide (t ∈ g.successors u)) with _ | u
        · simp only [Option.isSome_none, Bool.false_eq_true, false_iff]
          intro hc
          rcases mem_reachList_succ.mp hc with h | ⟨u, hu, hsucc⟩
          · exact hmem h
          · rw [List.find?_eq_none] at hf
            exact hf u hu (by simpa using hsucc)
        · have hu : u ∈ g.reachList s n := List.mem_of_find?_eq_some hf
          have hsucc : t ∈ g.successors u := by
            simpa using List.find?_some hf
          have hps : (g.pathTo s n u).isSome = true := (ih u).mpr hu
          rcases hp : g.pathTo s n u with _ | q
          · rw [hp] at hps; cases hps
          · simp only [hp, Option.map_some', Option.isSome_some, true_iff]
            exact mem_reachList_succ.mpr (Or.inr ⟨u, hu, hsucc⟩)

theorem pathTo_ne_nil (g : DiGraph) (s : String) :
    ∀ (n : ℕ) (t : String) (p : List String),
      g.pathTo s n t = some p → p ≠ [] := by
  intro n
  induction n with
  | zero =>
    intro t p hp
    rw [DiGraph.pathTo] at hp
    split at hp
    · cases hp; simp
    · cases hp
  | succ n ih =>
    intro t p hp
    rw [DiGraph.pathTo] at hp
    split at hp
    · cases hp; simp
    · split at hp
      · exact ih t p hp
      · split at hp
        case h_1 u hu =>
          rw [Option.map_eq_some'] at hp
          obtain ⟨q, _, hq⟩ := hp
          rw [← hq]
          simp
        case h_2 => cases hp

theorem reachList_subset_targets (g : DiGraph) (s : String) (n : ℕ) :
    ∀ x ∈ g.reachList s n, x = s ∨ x ∈ g.edges.map (fun e => e.2.1) := by
  induction n with
  | zero =>
    intro x hx
    rw [DiGraph.reachList, List.mem_singleton] at hx
    exact Or.inl hx
  | succ n ih =>
    intro x hx
    rcases mem_reachList_succ.mp hx with h | ⟨u, _, hsucc⟩
    · exact ih x h
    · obtain ⟨e, he, _, h2⟩ := mem_successors.mp hsucc
      exact Or.inr (List.mem_map.mpr ⟨e, he, h2⟩)

theorem reachList_toFinset_congr (g : DiGraph) (s : String) {m n : ℕ}
    (h : (g.reachList s m).toFinset = (g.reachList s n).toFinset) :
    (g.reachList s (m + 1)).toFinset = (g.reachList s (n + 1)).toFinset := by
  have hmem : ∀ y, y ∈ g.reachList s m ↔ y ∈ g.reachList s n := by
    intro y
    rw [← List.mem_toFinset, h, List.mem_toFinset]
  ext x
  simp only [List.mem_toFinset, mem_reachList_succ]
  constructor
  · rintro (h' | ⟨u, hu, hx⟩)
    · exact Or.inl ((hmem x).mp h')
    · exact Or.inr ⟨u, (hmem u).mp hu, hx⟩
  · rintro (h' | ⟨u, hu, hx⟩)
    · exact Or.inl ((hmem x).mpr h')
    · exact Or.inr ⟨u, (hmem u).mpr hu, hx⟩

theorem reachList_fix (g : DiGraph) (s : String) :
    ∃ n ≤ g.edges.length,
      (g.reachList s (n + 1)).toFinset = (g.reachList s n).toFinset := by
  by_contra hcon
  push_neg at hcon
  have hmono : ∀ n : ℕ,
      (g.reachList s n).toFinset ⊆ (g.reachList s (n + 1)).toFinset := by
    intro n x hx
    rw [List.mem_toFinset] at *
    exact reachList_mono_succ g s n hx
  have hstrict : ∀ n ≤ g.edges.length,
      (g.reachList s n).toFinset ⊂ (g.reachList s (n + 1)).toFinset := by
    intro n hn
    exact Finset.ssubset_iff_subset_ne.mpr ⟨hmono n, (hcon n hn).symm⟩
  have hcard : ∀ n ≤ g.edges.length + 1,
      n + 1 ≤ (g.reachList s n).toFinset.card := by
    intro n
    induction n with
    | zero =>
      intro _
      have hs : s ∈ (g.reachList s 0).toFinset := by
        rw [List.mem_toFinset]
        exact self_mem_reachList g s 0
      have := Finset.card_pos.mpr ⟨s, hs⟩
      omega
    | succ n ih =>
      intro hn
      have h1 : n ≤ g.edges.length := by omega
      have h2 := Finset.card_lt_card (hstrict n h1)
      have h3 := ih (by omega)
      omega
  have hsub : (g.reachList s (g.edges.length + 1)).toFinset ⊆
      insert s (g.edges.map (fun e => e.2.1)).toFinset := by
    intro x hx
    rw [List.mem_toFinset] at hx
    rcases reachList_subset_targets g s _ x hx with h | h
    · rw [h]; exact Finset.mem_insert_self s _
    · exact Finset.mem_insert_of_mem (List.mem_toFinset.mpr h)
  have h4 := Finset.card_le_card hsub
  have h5 : (insert s (g.edges.map (fun e => e.2.1)).toFinset).card ≤
      g.edges.length + 1 := by
    have h6 := Finset.card_insert_le s (g.edges.map (fun e => e.2.1)).toFinset
    have h7 := List.toFinset_card_le (g.edges.map (fun e => e.2.1))
    rw [List.length_map] at h7
    omega
  have h8 := hcard (g.edges.length + 1) (le_refl _)
  omega

theorem reaches_mem_reachList (g : DiGraph) (s t : String)
    (h : g.Reaches s t) : t ∈ g.reachList s (g.edges.length + 1) := by
  obtain ⟨n, hn, hfix⟩ := reachList_fix g s
  have hclosed : ∀ x ∈ g.reachList s n, ∀ y ∈ g.successors x,
      y ∈ g.reachList s n := by
    intro x hx y hy
    have hy1 : y ∈ g.reachList s (n + 1) :=
      mem_reachList_succ.mpr (Or.inr ⟨x, hx, hy⟩)
    rw [← List.mem_toFinset, hfix, List.mem_toFinset] at hy1
    exact hy1
  have ht : t ∈ g.reachList s n := by
    induction h with
    | refl => exact self_mem_reachList g s n
    | tail _ hbc ih => exact hclosed _ ih _ hbc
  exact reachList_mono g s (by omega) ht

/-- Claim C9: `get_shortest_path(a, b)` returns the empty sequence exactly
when at least one endpoint is absent from the graph or no directed path
from `a` to `b` exists; both exception cases are caught and returned as
a value. -/
theorem get_shortest_path_empty_iff (g : CodeGraph) (a b : String) :
    g.get_shortest_path a b = [] ↔
      ¬(a ∈ g.graph.nodes ∧ b ∈ g.graph.nodes ∧ g.graph.Reaches a b) := by
  unfold CodeGraph.get_shortest_path DiGraph.nxShortestPath
  by_cases ha : a ∈ g.graph.nodes
  · by_cases hb : b ∈ g.graph.nodes
    · rw [if_pos ha, if_pos hb]
      rcases hp : g.graph.pathTo a (g.graph.edges.length + 1) b with _ | p
      · constructor
        · intro _
          rintro ⟨_, _, hr⟩
          have hm := reaches_mem_reachList g.graph a b hr
          rw [← pathTo_isSome_iff] at hm
          rw [hp] at hm
          cases hm
        · intro _
          rfl
      · constructor
        · intro hpe
          exact absurd hpe (pathTo_ne_nil g.graph a _ b p hp)
        · intro h
          exfalso
          apply h
          refine ⟨ha, hb, ?_⟩
          have hs : (g.graph.pathTo a (g.graph.edges.length + 1) b).isSome = true := by
            rw [hp]
            rfl
          rw [pathTo_isSome_iff] at hs
          exact reachList_sound g.graph a _ b hs
    · rw [if_pos ha, if_neg hb]
      simp [hb]
  · rw [if_neg ha]
    simp [ha]

theorem add_reference_edge_element_index (g : CodeGraph) (u v el : String)
    (w : ℚ) (ty : ReferenceType) :
    (g.add_reference_edge u v el w ty).element_index = g.element_index := by
  unfold CodeGraph.add_reference_edge
  split <;> rfl

theorem mem_add_reference_edge_edges {g : CodeGraph} {u v el : String}
    {w : ℚ} {ty : ReferenceType} {e : String × String × EdgeData}
    (he : e ∈ (g.add_reference_edge u v el w ty).graph.edges) :
    e = (u, v, ⟨el, w, ty⟩) ∨ e ∈ g.graph.edges := by
  unfold CodeGraph.add_reference_edge at he
  split at he
  · exact Or.inr he
  · change e ∈ (g.graph.addEdge u v (EdgeData.mk el w ty)).edges at he
    rw [addEdge_edges] at he
    split at he
    · rw [List.mem_map] at he
      obtain ⟨e0, he0, hfe⟩ := he
      by_cases hc : e0.1 = u ∧ e0.2.1 = v
      · rw [if_pos hc] at hfe
        exact Or.inl hfe.symm
      · rw [if_neg hc] at hfe
        rw [← hfe]
        exact Or.inr he0
    · rw [List.mem_append, List.mem_singleton] at he
      rcases he with he | he
      · exact Or.inr he
      · exact Or.inl he

theorem buildRefTargets_spec (dict : List (String × Chunk)) (c : Chunk)
    (ref : Reference) :
    ∀ (tids : List String) (g g' : CodeGraph),
      CodeGraph.buildRefTargets dict c ref tids g = some g' →
      g'.element_index = g.element_index ∧
      ∀ e ∈ g'.graph.edges, e ∈ g.graph.edges ∨
        ∃ tid ∈ tids, ∃ src tgt : Chunk,
          assocLookup dict c.id = some src ∧
          assocLookup dict tid = some tgt ∧ tid ≠ c.id ∧
          e = (c.id, tid, ⟨ref.target_element,
            CodeGraph.calculate_edge_weight src tgt ref,
            ref.reference_type⟩) := by
  intro tids
  induction tids with
  | nil =>
    intro g g' hb
    rw [CodeGraph.buildRefTargets] at hb
    cases hb
    exact ⟨rfl, fun e he => Or.inl he⟩
  | cons tid rest ih =>
    intro g g' hb
    rw [CodeGraph.buildRefTargets] at hb
    split at hb
    · obtain ⟨hidx, hmem⟩ := ih g g' hb
      refine ⟨hidx, fun e he => ?_⟩
      rcases hmem e he with h | ⟨t, ht, src, tgt, h1, h2, h3, h4⟩
      · exact Or.inl h
      · exact Or.inr ⟨t, List.mem_cons_of_mem tid ht, src, tgt, h1, h2, h3, h4⟩
    · case isFalse hne =>
      split at hb
      · case h_1 src tgt hsrc htgt =>
        obtain ⟨hidx, hmem⟩ := ih _ g' hb
        rw [add_reference_edge_element_index] at hidx
        refine ⟨hidx, fun e he => ?_⟩
        rcases hmem e he with h | ⟨t, ht, src', tgt', h1, h2, h3, h4⟩
        · rcases mem_add_reference_edge_edges h with h' | h'
          · exact Or.inr ⟨tid, List.mem_cons_self tid rest, src, tgt,
              hsrc, htgt, hne, h'⟩
          · exact Or.inl h'
        · exact Or.inr ⟨t, List.mem_cons_of_mem tid ht, src', tgt',
            h1, h2, h3, h4⟩
      · case h_2 =>
        exact absurd hb (by simp)

theorem buildRefList_spec (dict : List (String × Chunk)) (c : Chunk) :
    ∀ (refs : List Reference) (g g' : CodeGraph),
      CodeGraph.buildRefList dict c refs g = some g' →
      g'.element_index = g.element_index ∧
      ∀ e ∈ g'.graph.edges, e ∈ g.graph.edges ∨
        ∃ ref ∈ refs, ∃ tid ∈ lookupD g.element_index ref.target_element [],
          ∃ src tgt : Chunk,
            assocLookup dict c.id = some src ∧
            assocLookup dict tid = some tgt ∧ tid ≠ c.id ∧
            e = (c.id, tid, ⟨ref.target_element,
              CodeGraph.calculate_edge_weight src tgt ref,
              ref.reference_type⟩) := by
  intro refs
  induction refs with
  | nil =>
    intro g g' hb
    rw [CodeGraph.buildRefList] at hb
    cases hb
    exact ⟨rfl, fun e he => Or.inl he⟩
  | cons ref rest ih =>
    intro g g' hb
    rw [CodeGraph.buildRefList] at hb
    split at hb
    · case h_1 g1 ht =>
      obtain ⟨hidx0, hmem0⟩ := buildRefTargets_spec dict c ref _ g g1 ht
      obtain ⟨hidx1, hmem1⟩ := ih g1 g' hb
      refine ⟨hidx1.trans hidx0, fun e he => ?_⟩
      rcases hmem1 e he with h | ⟨r, hr, t, htm, src, tgt, h1, h2, h3, h4⟩
      · rcases hmem0 e h with h' | ⟨t, ht', src, tgt, h1, h2, h3, h4⟩
        · exact Or.inl h'
        · exact Or.inr ⟨ref, List.mem_cons_self ref rest, t, ht',
            src, tgt, h1, h2, h3, h4⟩
      · rw [hidx0] at htm
        exact Or.inr ⟨r, List.mem_cons_of_mem ref hr, t, htm,
          src, tgt, h1, h2, h3, h4⟩
    · case h_2 =>
      exact absurd hb (by simp)

theorem buildRefChunks_spec (dict : List (String × Chunk))
    (extract : Chunk → List Reference) :
    ∀ (cs : List Chunk) (g g' : CodeGraph),
      CodeGraph.buildRefChunks dict extract cs g = some g' →
      g'.element_index = g.element_index ∧
      ∀ e ∈ g'.graph.edges, e ∈ g.graph.edges ∨
        ∃ c ∈ cs, ∃ ref ∈ extract c,
          ∃ tid ∈ lookupD g.element_index ref.target_element [],
          ∃ src tgt : Chunk,
            assocLookup dict c.id = some src ∧
            assocLookup dict tid = some tgt ∧ tid ≠ c.id ∧
            e = (c.id, tid, ⟨ref.target_element,
              CodeGraph.calculate_edge_weight src tgt ref,
              ref.reference_type⟩) := by
  intro cs
  induction cs with
  | nil =>
    intro g g' hb
    rw [CodeGraph.buildRefChunks] at hb
    cases hb
    exact ⟨rfl, fun e he => Or.inl he⟩
  | cons c rest ih =>
    intro g g' hb
    rw [CodeGraph.buildRefChunks] at hb
    split at hb
    · case h_1 g1 hl =>
      obtain ⟨hidx0, hmem0⟩ := buildRefList_spec dict c _ g g1 hl
      obtain ⟨hidx1, hmem1⟩ := ih g1 g' hb
      refine ⟨hidx1.trans hidx0, fun e he => ?_⟩
      rcases hmem1 e he with h | ⟨c', hc', r, hr, t, htm, src, tgt,
          h1, h2, h3, h4⟩
      · rcases hmem0 e h with h' | ⟨r, hr, t, htm, src, tgt, h1, h2, h3, h4⟩
        · exact Or.inl h'
        · exact Or.inr ⟨c, List.mem_cons_self c rest, r, hr, t, htm,
            src, tgt, h1, h2, h3, h4⟩
      · rw [hidx0] at htm
        exact Or.inr ⟨c', List.mem_cons_of_mem c hc', r, hr, t, htm,
          src, tgt, h1, h2, h3, h4⟩
    · case h_2 =>
      exact absurd hb (by simp)

/-- Claim C1 (amended): every edge `build_references` adds runs from a chunk
of the batch to a distinct chunk defining the referenced element, and its
stored weight is `min(1.0, (base(kind) + same_file_bonus +
proximity_bonus) times confidence)` — the cap at 1.0 is applied after the
confidence factor, not before it as the claim states. -/
theorem build_references_edge_weight_amended (chunks : List Chunk)
    (extract : Chunk → List Reference) (g₀ g' : CodeGraph)
    (hb : g₀.build_references chunks extract = some g') :
    ∀ e ∈ g'.graph.edges,
      e ∈ g₀.graph.edges ∨ CreatedEdgeSpec chunks extract g₀ e := by
  unfold CodeGraph.build_references at hb
  intro e he
  rcases (buildRefChunks_spec _ _ chunks g₀ g' hb).2 e he with
    h | ⟨c, hc, ref, href, tid, htid, src, tgt, hsrc, htgt, hne, hee⟩
  · exact Or.inl h
  · right
    rw [hee]
    exact ⟨c, hc, ref, href, src, tgt, hsrc, htgt, htid, rfl, hne,
      by rw [calculate_edge_weight_eq_amended]⟩

theorem build_references_edge_weight_amended_witness :
    exGraph0.build_references [exChunkA, exChunkB] exExtractRefs =
      some exGraphResult ∧
    ("a", "b", (⟨"Foo", (0.96 : ℚ), ReferenceType.CALLS⟩ : EdgeData)) ∈
      exGraphResult.graph.edges ∧
    (("a", "b", (⟨"Foo", (0.96 : ℚ), ReferenceType.CALLS⟩ : EdgeData)) ∈
        exGraph0.graph.edges ∨
      CreatedEdgeSpec [exChunkA, exChunkB] exExtractRefs exGraph0
        ("a", "b", ⟨"Foo", (0.96 : ℚ), ReferenceType.CALLS⟩)) := by
  have h1 : exGraph0.build_references [exChunkA, exChunkB] exExtractRefs =
      some exGraphResult := by
    show exGraphBuilt = some exGraphResult
    rw [exGraphBuilt_eq, exGraphResult_eq]
  have h2 : ("a", "b", (⟨"Foo", (0.96 : ℚ), ReferenceType.CALLS⟩ : EdgeData)) ∈
      exGraphResult.graph.edges := by
    rw [exGraphResult_eq]
    exact List.mem_singleton.mpr rfl
  exact ⟨h1, h2, build_references_edge_weight_amended [exChunkA, exChunkB] exExtractRefs exGraph0
    exGraphResult h1 _ h2⟩

/-- Claim C8: `get_neighbors` with `max_distance = 0` returns the empty
collection for every graph, chunk id and weight threshold. -/
theorem get_neighbors_distance_zero_empty (g : CodeGraph) (x : String) (w : ℚ) :
    g.get_neighbors x 0 w = [] := by
  unfold CodeGraph.get_neighbors DiGraph.get_neighbors
  split <;> rfl
